import Mathlib

/-!
Verification development for the Plant Village Orange dataset tooling.

The repository consists of three batch scripts:
 - scripts/reorganize_dataset.py : copies raw images into a canonical layout
   and converts per-image JSON box annotations into flat CSV files;
 - scripts/fix_splits.py : reconciles externally supplied split lists against
   the canonical filenames via a multi-strategy filename matcher;
 - scripts/convert_to_coco.py : reads the canonical layout and emits COCO-style
   JSON exports, optionally merging several categories with renumbered ids.

This file shallowly embeds the pure content of those scripts: directory trees
are modelled as explicit finite structures, Python floats as rationals, and
every fallible operation as an Option.  Python string primitives used by the
scripts (str.lower, pathlib stem, substring membership, glob matching,
sorted(...)) are modelled character-by-character on String.data.
-/

set_option maxHeartbeats 1000000

namespace PlantVillage

/-! ## String primitives -/

/-- Python str.lower restricted to ASCII, as used on dataset filenames. -/
def lowerStr (s : String) : String := ⟨s.data.map Char.toLower⟩

/-- The final path component of a POSIX path: the characters after the last
slash (pathlib PurePath.name). -/
def pathName (s : String) : String :=
  ⟨(s.data.reverse.takeWhile (fun c => c != '/')).reverse⟩

/-- Index of the last dot in a character list, if any (str.rfind). -/
def lastDotIdx (l : List Char) : Option Nat :=
  match l.reverse.findIdx? (fun c => c == '.') with
  | none => none
  | some j => some (l.length - 1 - j)

/-- pathlib Path.stem: the final component without its last suffix.  The
suffix is dropped only when the last dot sits strictly inside the name
(neither leading nor trailing), mirroring CPython's rfind-based rule. -/
def pathStem (s : String) : String :=
  match lastDotIdx (pathName s).data with
  | none => pathName s
  | some i =>
      if 0 < i ∧ i < (pathName s).data.length - 1 then ⟨(pathName s).data.take i⟩
      else pathName s

/-- Does the second list occur at the head of the first?  (Helper for the
substring test.) -/
def leadsChars : List Char → List Char → Bool
  | [], _ => true
  | _ :: _, [] => false
  | a :: as, b :: bs => a == b && leadsChars as bs

/-- Does pat occur contiguously anywhere inside the list? -/
def hasSubChars (pat : List Char) : List Char → Bool
  | [] => leadsChars pat []
  | b :: bs => leadsChars pat (b :: bs) || hasSubChars pat bs

/-- Python's substring membership test, pat in hay. -/
def strContains (hay pat : String) : Bool := hasSubChars pat.data hay.data

/-- Python str.strip on ASCII whitespace. -/
def stripStr (s : String) : String :=
  ⟨((s.data.dropWhile Char.isWhitespace).reverse.dropWhile Char.isWhitespace).reverse⟩

/-- Does the character list end with the given suffix? -/
def endsWithChars (l suf : List Char) : Bool := leadsChars suf.reverse l.reverse

/-- Glob matching for the only patterns the scripts use, of shape *SUFFIX:
the filename must end with the suffix.  pathlib's Path.glob is fnmatch
based and, unlike the glob module, also matches hidden dot-files, so no
leading-dot exclusion applies. -/
def globMatch (ext f : String) : Bool :=
  endsWithChars f.data ext.data

/-! ## Code-point lexicographic order on strings

Python compares strings lexicographically by code points.  The core String
order does not reduce in the kernel, so the order is defined here directly
on the character lists. -/

/-- Strict code-point lexicographic comparison of character lists. -/
def charsLtb : List Char → List Char → Bool
  | _, [] => false
  | [], _ :: _ => true
  | a :: as, b :: bs =>
      if a.toNat < b.toNat then true
      else if b.toNat < a.toNat then false
      else charsLtb as bs

/-- Python's strict string comparison, a < b by code points. -/
def strLtb (a b : String) : Bool := charsLtb a.data b.data

/-- One step of insertion sort with respect to strLtb. -/
def insertStr (a : String) : List String → List String
  | [] => [a]
  | b :: bs => if strLtb a b then a :: b :: bs else b :: insertStr a bs

/-- Insertion sort with respect to strLtb. -/
def sortStr : List String → List String
  | [] => []
  | a :: as => insertStr a (sortStr as)

/-- sorted(set(l)) on Python strings: deduplicate, then sort ascending. -/
def sortedDedup (l : List String) : List String := sortStr l.dedup

/-! ## CSV model

A CSV cell is either blank (missing column or empty string), a value that
float() accepts, or non-empty text that float() rejects.  A file is a header
row plus data rows; csv.DictReader keys each row by the header names. -/

/-- A single CSV cell as seen by float()-based parsing. -/
inductive Cell where
  | blank : Cell
  | num : ℚ → Cell
  | bad : Cell
deriving DecidableEq

/-- A CSV file: header names plus data rows (cells in header order). -/
structure CsvFile where
  header : List String
  rows : List (List Cell)
deriving DecidableEq

/-- A parsed bounding box, always [x, y, width, height] in pixel units
(dataclass CsvBox of convert_to_coco.py). -/
structure CsvBox where
  x : ℚ
  y : ℚ
  width : ℚ
  height : ℚ
deriving DecidableEq

/-- The dict csv.DictReader produces for one data row, with keys lowered as
in the parser's row comprehension: cells are keyed by the lowercased header
names, short rows padded with blanks (DictReader's restval None). -/
def rowDict : List String → List Cell → List (String × Cell)
  | [], _ => []
  | k :: ks, [] => (lowerStr k, Cell.blank) :: rowDict ks []
  | k :: ks, c :: cs => (lowerStr k, c) :: rowDict ks cs

/-- Python dict lookup on an association list built by repeated assignment:
the value of the last binding for the key wins. -/
def pyFind (d : List (String × Cell)) (k : String) : Option Cell :=
  List.lookup k d.reverse

/-- The get helper of _parse_csv_boxes: try each synonym key in order and
return the first value float() accepts; keys that are absent, blank, or
unparseable fall through to the next synonym. -/
def getNum (d : List (String × Cell)) : List String → Option ℚ
  | [] => none
  | k :: ks =>
      match pyFind d k with
      | some (Cell.num q) => some q
      | _ => getNum d ks

/-- The row loop of _parse_csv_boxes: a row contributes a box exactly when
x, y, w and h all resolve; otherwise it is skipped and parsing continues. -/
def parseRows (header : List String) : List (List Cell) → List CsvBox
  | [] => []
  | cells :: rest =>
      match getNum (rowDict header cells) ["x", "xc", "x_center"],
            getNum (rowDict header cells) ["y", "yc", "y_center"],
            getNum (rowDict header cells) ["w", "width", "dx"],
            getNum (rowDict header cells) ["h", "height", "dy"] with
      | some xv, some yv, some wv, some hv =>
          ⟨xv, yv, wv, hv⟩ :: parseRows header rest
      | _, _, _, _ => parseRows header rest

/-- _parse_csv_boxes on a CSV file that exists. -/
def parseCsvBoxes (f : CsvFile) : List CsvBox := parseRows f.header f.rows

/-- The claim-side description of one row: the four fields are matched
case-insensitively via the synonym groups and the row yields a box only
when all four resolve to parseable numbers. -/
def rowBox (header : List String) (cells : List Cell) : Option CsvBox :=
  match getNum (rowDict header cells) ["x", "xc", "x_center"],
        getNum (rowDict header cells) ["y", "yc", "y_center"],
        getNum (rowDict header cells) ["w", "width", "dx"],
        getNum (rowDict header cells) ["h", "height", "dy"] with
  | some xv, some yv, some wv, some hv => some ⟨xv, yv, wv, hv⟩
  | _, _, _, _ => none

/-! ## Reorganizer (reorganize_dataset.py) -/

/-- One entry of the annotations list of a source JSON file:
{bbox : [x, y, w, h], category_id}. -/
structure AnnEntry where
  bboxX : ℚ
  bboxY : ℚ
  bboxW : ℚ
  bboxH : ℚ
  categoryId : ℤ
deriving DecidableEq

/-- A parsed source annotation JSON document. -/
structure AnnJson where
  annotations : List AnnEntry
deriving DecidableEq

/-- The fixed CSV header written by json_to_csv. -/
def csvHeader : List String := ["#item", "x", "y", "width", "height", "label"]

/-- The data rows json_to_csv writes: the zero-based index, the four bbox
components, and label 1 when category_id is non-zero else 0. -/
def jsonToCsvRows : Nat → List AnnEntry → List (List Cell)
  | _, [] => []
  | i, a :: rest =>
      [Cell.num i, Cell.num a.bboxX, Cell.num a.bboxY, Cell.num a.bboxW,
       Cell.num a.bboxH, Cell.num (if a.categoryId ≠ 0 then 1 else 0)]
        :: jsonToCsvRows (i + 1) rest

/-- The CSV file json_to_csv produces (header-only when there are no
annotations; the empty-annotations early return writes the same file). -/
def jsonToCsvFile (d : AnnJson) : CsvFile := ⟨csvHeader, jsonToCsvRows 0 d.annotations⟩

/-- The header-only CSV written for images with no annotation JSON. -/
def emptyCsvFile : CsvFile := ⟨csvHeader, []⟩

/-- A raw source directory as process_directory sees it: the filenames
present (globbed for images) and the annotation JSON files, where a present
file either parses (some doc) or is malformed (none). -/
structure SourceDir where
  files : List String
  jsonFiles : String → Option (Option AnnJson)

/-- The image list process_directory builds: glob *EXT then *ext.lower(). -/
def imageGlob (src : SourceDir) (ext : String) : List String :=
  src.files.filter (globMatch ext) ++ src.files.filter (globMatch (lowerStr ext))

/-- Locating the sibling JSON of an image: first stem.json, else name.json. -/
def jsonFor (src : SourceDir) (f : String) : Option (Option AnnJson) :=
  match src.jsonFiles (pathStem f ++ ".json") with
  | some c => some c
  | none => src.jsonFiles (f ++ ".json")

/-- The per-image loop of process_directory, returning the copied image
files and the CSV writes (stem, content) in execution order.  A parsed JSON
yields the derived CSV; a missing JSON yields the header-only CSV; a
malformed JSON only logs a warning, so it writes no CSV for that image and
processing continues with the remaining images. -/
def processImages (src : SourceDir) : List String → List String × List (String × CsvFile)
  | [] => ([], [])
  | f :: rest =>
      match jsonFor src f with
      | some (some d) =>
          (f :: (processImages src rest).1,
           (pathStem f, jsonToCsvFile d) :: (processImages src rest).2)
      | some none => (f :: (processImages src rest).1, (processImages src rest).2)
      | none =>
          (f :: (processImages src rest).1,
           (pathStem f, emptyCsvFile) :: (processImages src rest).2)

/-- process_directory over one source directory. -/
def processDirectory (src : SourceDir) (ext : String) : List String × List (String × CsvFile) :=
  processImages src (imageGlob src ext)

/-- The CSV file present for a stem after a sequence of writes: the last
write to that stem wins. -/
def csvLookup (ws : List (String × CsvFile)) (stem : String) : Option CsvFile :=
  List.lookup stem ws.reverse

/-- The category split regrouping predicate of reorganize_splits: a line
belongs to the oranges category exactly when it contains one of the three
filename markers. -/
def isOrangeLine (line : String) : Bool :=
  strContains line "CREC_HLB" || strContains line "UF.Citrus_HLB" || strContains line "image ("

/-- The line loop of reorganize_splits: each non-blank line's stem is
appended to the oranges group or to the backgrounds group according to the
filename heuristic. -/
def categorizeLines : List String → List String × List String
  | [] => ([], [])
  | l :: rest =>
      if isOrangeLine l then (pathStem l :: (categorizeLines rest).1, (categorizeLines rest).2)
      else ((categorizeLines rest).1, pathStem l :: (categorizeLines rest).2)

/-! ## Split fixer (fix_splits.py) -/

/-- The extension-stripped form the fallback scan uses for a mapping key:
Path(orig).stem when orig contains a dot, otherwise orig itself. -/
def origStem (orig : String) : String :=
  if orig.data.contains '.' then pathStem orig else orig

/-- The exact-lookup phase: try each candidate key in order against the
mapping and return the first hit. -/
def findFirstKey (m : List (String × String)) : List String → Option String
  | [] => none
  | k :: ks =>
      match List.lookup k m with
      | some v => some v
      | none => findFirstKey m ks

/-- The partial-match fallback of fix_splits: scan the mapping in iteration
order and take the first entry whose extension-stripped key equals the
line's stem or the line's lowercased stem. -/
def fallbackScan (m : List (String × String)) (ls lsl : String) : Option String :=
  m.findSome? (fun p => if origStem p.1 = ls ∨ origStem p.1 = lsl then some p.2 else none)

/-- Resolution of one split-file line, as the fix_splits loop performs it:
exact lookups by the original line, its stem, the lowercased line and the
lowercased stem, in that order; on total miss, the fallback scan. -/
def resolveLine (m : List (String × String)) (line : String) : Option String :=
  match findFirstKey m [line, pathStem line, lowerStr line, lowerStr (pathStem line)] with
  | some v => some v
  | none => fallbackScan m (pathStem line) (lowerStr (pathStem line))

/-- The fallback scan as the specification words it: extension-stripped
forms are compared case-sensitively and case-insensitively against every
mapping key. -/
def specFallbackScan (m : List (String × String)) (ls lsl : String) : Option String :=
  m.findSome? (fun p =>
    if origStem p.1 = ls ∨ lowerStr (origStem p.1) = lsl then some p.2 else none)

/-- Line resolution as the specification words it: the four exact lookups in
priority order, then the case-sensitive and case-insensitive fallback scan. -/
def specResolveLine (m : List (String × String)) (line : String) : Option String :=
  match List.lookup line m with
  | some v => some v
  | none =>
    match List.lookup (pathStem line) m with
    | some v => some v
    | none =>
      match List.lookup (lowerStr line) m with
      | some v => some v
      | none =>
        match List.lookup (lowerStr (pathStem line)) m with
        | some v => some v
        | none => specFallbackScan m (pathStem line) (lowerStr (pathStem line))

/-- The amended fallback description: the scan takes the first mapping entry
in iteration order whose extension-stripped key equals the line's stem or
the line's lowercased stem (so case drift is absorbed only when the mapping
key is already lowercase). -/
def amendedFallbackScan (m : List (String × String)) (ls lsl : String) : Option String :=
  ((m.filter (fun p => origStem p.1 == ls || origStem p.1 == lsl)).head?).map Prod.snd

/-- Line resolution as the amended claim words it. -/
def amendedResolveLine (m : List (String × String)) (line : String) : Option String :=
  match List.lookup line m with
  | some v => some v
  | none =>
    match List.lookup (pathStem line) m with
    | some v => some v
    | none =>
      match List.lookup (lowerStr line) m with
      | some v => some v
      | none =>
        match List.lookup (lowerStr (pathStem line)) m with
        | some v => some v
        | none => amendedFallbackScan m (pathStem line) (lowerStr (pathStem line))

/-- The per-split body of fix_splits: resolve every line, drop the
unresolved ones, then write sorted(set(resolved)). -/
def fixSplitLines (m : List (String × String)) (lines : List String) : List String :=
  sortedDedup (lines.filterMap (resolveLine m))

/-! ## COCO converter (convert_to_coco.py) -/

/-- One entry of the images list of an export. -/
structure ImageRec where
  id : Nat
  fileName : String
  width : Nat
  height : Nat
deriving DecidableEq

/-- One entry of the annotations list of an export. -/
structure AnnRec where
  id : Nat
  imageId : Nat
  categoryId : Nat
  bbox : CsvBox
  area : ℚ
  iscrowd : Nat
deriving DecidableEq

/-- One entry of the categories list of an export. -/
structure CatRec where
  id : Nat
  name : String
  supercategory : String
deriving DecidableEq

/-- The slice of a category directory _collect_annotations_for_split reads
for one split: the split file's raw lines when the file exists, the image
files with their probed pixel sizes, and the per-stem CSV files. -/
structure CategoryFS where
  splitLines : Option (List String)
  imageFiles : List (String × Nat × Nat)
  csvFiles : String → Option CsvFile

/-- _read_split_list: strip every line and keep the non-blank ones; a
missing file reads as the empty list. -/
def readSplitList (o : Option (List String)) : List String :=
  match o with
  | none => []
  | some lines => (lines.map stripStr).filter (fun l => l ≠ "")

/-- The fallback stem collection: stems of every file matching *.jpg, *.JPG
or *.png under images/. -/
def globStems (fs : CategoryFS) : List String :=
  ((fs.imageFiles.filter (fun e => globMatch ".jpg" e.1)).map (fun e => pathStem e.1))
    ++ ((fs.imageFiles.filter (fun e => globMatch ".JPG" e.1)).map (fun e => pathStem e.1))
    ++ ((fs.imageFiles.filter (fun e => globMatch ".png" e.1)).map (fun e => pathStem e.1))

/-- The stem list before sorting: the split list when it has entries,
otherwise every image under images/. -/
def splitStems (fs : CategoryFS) : List String :=
  if readSplitList fs.splitLines = [] then globStems fs else readSplitList fs.splitLines

/-- sorted(image_stems): the deduplicated stems in ascending string order. -/
def sortedStems (fs : CategoryFS) : List String := sortedDedup (splitStems fs)

/-- Directory lookup of a concrete filename under images/. -/
def lookupImage (fs : CategoryFS) (f : String) : Option (Nat × Nat) :=
  List.lookup f fs.imageFiles

/-- Resolution of a stem to an image file: first existing of stem.jpg,
stem.JPG, stem.png, with the probed (width, height). -/
def findImage (fs : CategoryFS) (stem : String) : Option (String × Nat × Nat) :=
  match lookupImage fs (stem ++ ".jpg") with
  | some d => some (stem ++ ".jpg", d)
  | none =>
    match lookupImage fs (stem ++ ".JPG") with
    | some d => some (stem ++ ".JPG", d)
    | none =>
      match lookupImage fs (stem ++ ".png") with
      | some d => some (stem ++ ".png", d)
      | none => none

/-- The boxes of a stem's CSV; a missing CSV contributes no boxes. -/
def stemBoxes (fs : CategoryFS) (stem : String) : List CsvBox :=
  match fs.csvFiles stem with
  | none => []
  | some f => parseCsvBoxes f

/-- The annotation records emitted for one image: consecutive ids from the
running counter, the image's id, category id 1, area = width * height and
iscrowd 0. -/
def mkAnns (imgId : Nat) : Nat → List CsvBox → List AnnRec
  | _, [] => []
  | annId, b :: rest =>
      ⟨annId, imgId, 1, b, b.width * b.height, 0⟩ :: mkAnns imgId (annId + 1) rest

/-- The stem loop of _collect_annotations_for_split with its two running
counters: unresolvable stems are skipped and consume no id; a resolved stem
appends one image record and one annotation per parsed CSV box. -/
def collectLoop (fs : CategoryFS) (catName : String) :
    List String → Nat → Nat → List ImageRec × List AnnRec
  | [], _, _ => ([], [])
  | stem :: rest, imgId, annId =>
      match findImage fs stem with
      | none => collectLoop fs catName rest imgId annId
      | some (fname, w, h) =>
          (⟨imgId, catName ++ "/images/" ++ fname, w, h⟩ ::
              (collectLoop fs catName rest (imgId + 1) (annId + (stemBoxes fs stem).length)).1,
           mkAnns imgId annId (stemBoxes fs stem) ++
              (collectLoop fs catName rest (imgId + 1) (annId + (stemBoxes fs stem).length)).2)

/-- The singular category label: the name with one trailing s stripped. -/
def singularize (s : String) : String :=
  if s.data.getLast? = some 's' then ⟨s.data.dropLast⟩ else s

/-- _collect_annotations_for_split: images, annotations and the one-element
categories list of a single-category export. -/
def collectAnnotationsForSplit (fs : CategoryFS) (catName : String) :
    List ImageRec × List AnnRec × List CatRec :=
  ((collectLoop fs catName (sortedStems fs) 1 1).1,
   (collectLoop fs catName (sortedStems fs) 1 1).2,
   [⟨1, singularize catName, "plant"⟩])

/-- The filename of the image a stem resolves to, for stating order facts. -/
def resolvedName (fs : CategoryFS) (stem : String) : String :=
  match findImage fs stem with
  | some (f, _, _) => f
  | none => ""

/-- The annotation image-id pattern of one split: the k-th resolved stem
contributes one copy of its image id per CSV box. -/
def annImgPattern (fs : CategoryFS) : List String → Nat → List Nat
  | [], _ => []
  | s :: ss, n =>
      match findImage fs s with
      | none => annImgPattern fs ss n
      | some _ => List.replicate (stemBoxes fs s).length n ++ annImgPattern fs ss (n + 1)

/-! ## Merging (convert_to_coco.py, _merge_coco_splits) -/

/-- One single-category export as fed to the merge. -/
structure CatExport where
  images : List ImageRec
  anns : List AnnRec
  cats : List CatRec
deriving DecidableEq

/-- The id_map one category contributes: old image id to new merged id, in
list order; a repeated old id is overwritten by the later binding. -/
def buildIdMap : List ImageRec → Nat → List (Nat × Nat)
  | [], _ => []
  | im :: rest, nxt => (im.id, nxt) :: buildIdMap rest (nxt + 1)

/-- Python dict lookup over bindings in insertion order: last binding wins. -/
def idMapFind (m : List (Nat × Nat)) (k : Nat) : Option Nat :=
  List.lookup k m.reverse

/-- The merged copies of one category's images, renumbered consecutively
while preserving every other field. -/
def renumberImgs : List ImageRec → Nat → List ImageRec
  | [], _ => []
  | im :: rest, nxt => {im with id := nxt} :: renumberImgs rest (nxt + 1)

/-- The merged copies of one category's annotations: fresh consecutive ids,
the image id remapped through the category's id_map (a miss is a Python
KeyError, modelled as none), and the merged category id. -/
def remapAnns (idMap : List (Nat × Nat)) (catId : Nat) :
    List AnnRec → Nat → Option (List AnnRec)
  | [], _ => some []
  | a :: rest, nxt =>
      match idMapFind idMap a.imageId with
      | none => none
      | some nid =>
          match remapAnns idMap catId rest (nxt + 1) with
          | none => none
          | some rs => some ({a with id := nxt, imageId := nid, categoryId := catId} :: rs)

/-- The category_to_cat dict: names enumerated from 1, later duplicates
overwriting earlier ones. -/
def catAssign : List String → Nat → List (String × Nat)
  | [], _ => []
  | nm :: rest, i => (nm, i) :: catAssign rest (i + 1)

/-- Lookup in category_to_cat (last binding wins). -/
def categoryToCat (names : List String) (nm : String) : Option Nat :=
  List.lookup nm (catAssign names 1).reverse

/-- The merged categories list: ids 1..K in input order, singular names. -/
def mergeCats : List String → Nat → List CatRec
  | [], _ => []
  | nm :: rest, i => ⟨i, singularize nm, "plant"⟩ :: mergeCats rest (i + 1)

/-- The category loop of _merge_coco_splits over the zipped (export, name)
pairs, carrying the two global id counters. -/
def mergeLoop (names : List String) :
    List (CatExport × String) → Nat → Nat → Option (List ImageRec × List AnnRec)
  | [], _, _ => some ([], [])
  | (pc, nm) :: rest, nImg, nAnn =>
      match categoryToCat names nm with
      | none => none
      | some catId =>
          match remapAnns (buildIdMap pc.images nImg) catId pc.anns nAnn with
          | none => none
          | some newAnns =>
              match mergeLoop names rest (nImg + pc.images.length) (nAnn + pc.anns.length) with
              | none => none
              | some r => some (renumberImgs pc.images nImg ++ r.1, newAnns ++ r.2)

/-- _merge_coco_splits: merge single-category exports into one document. -/
def mergeCocoSplits (per : List CatExport) (names : List String) :
    Option (List ImageRec × List AnnRec × List CatRec) :=
  match mergeLoop names (per.zip names) 1 1 with
  | none => none
  | some r => some (r.1, r.2, mergeCats names 1)

/-- The expected image-id remapping of the merged annotations, block by
block: each category's annotations carry the id_map of that category
applied to their original image ids. -/
def remappedIds : List CatExport → Nat → List Nat
  | [], _ => []
  | pc :: rest, nImg =>
      pc.anns.map (fun a => (idMapFind (buildIdMap pc.images nImg) a.imageId).getD 0)
        ++ remappedIds rest (nImg + pc.images.length)

/-- The expected category-id pattern of the merged annotations: the k-th
input category's annotations all carry category id k (1-based). -/
def catIdPattern : List CatExport → Nat → List Nat
  | [], _ => []
  | pc :: rest, i => List.replicate pc.anns.length i ++ catIdPattern rest (i + 1)

/-- The category ids the merge assigns, block by block: each category's
annotations all carry the category_to_cat value of that category's name. -/
def mergedCatIds (names : List String) : List (CatExport × String) → List Nat
  | [] => []
  | p :: rest =>
      List.replicate p.1.anns.length ((categoryToCat names p.2).getD 0)
        ++ mergedCatIds names rest

/-! ## Concrete inputs used by counterexamples and witnesses -/

/-- A source directory with one image whose annotation JSON is malformed. -/
def c1src : SourceDir := ⟨["a.JPG"], fun s => if s = "a.json" then some none else none⟩

/-- A source directory with one image whose annotation JSON parses. -/
def c1wit : SourceDir :=
  ⟨["b.JPG"], fun s => if s = "b.json" then some (some ⟨[⟨1, 2, 3, 4, 1⟩]⟩) else none⟩

/-- A category directory with no split file and one well-named image. -/
def c7fs : CategoryFS := ⟨none, [("img1.jpg", 10, 20)], fun _ => none⟩

/-- A fixed box reused by the merge witness. -/
def c3box : CsvBox := ⟨0, 0, 2, 3⟩

/-- Two single-category exports with 3 and 2 images, as in the spec's merged
export example. -/
def c3per : List CatExport :=
  [⟨[⟨1, "oranges/images/a.jpg", 4, 5⟩, ⟨2, "oranges/images/b.jpg", 4, 5⟩,
     ⟨3, "oranges/images/c.jpg", 4, 5⟩],
    [⟨1, 1, 1, c3box, 6, 0⟩, ⟨2, 3, 1, c3box, 6, 0⟩],
    [⟨1, "orange", "plant"⟩]⟩,
   ⟨[⟨1, "backgrounds/images/d.jpg", 4, 5⟩, ⟨2, "backgrounds/images/e.jpg", 4, 5⟩],
    [⟨1, 2, 1, c3box, 6, 0⟩],
    [⟨1, "background", "plant"⟩]⟩]

/-- The category order for the merge witness. -/
def c3names : List String := ["oranges", "backgrounds"]

/-- A two-entry annotation document for the round-trip witness. -/
def c2doc : AnnJson := ⟨[⟨1, 2, 3, 4, 1⟩, ⟨5, 6, 7, 8, 0⟩]⟩

/-- A category directory for the dense-id witness: the split file lists b,
a and zz; only a and b resolve to image files. -/
def c4fs : CategoryFS :=
  ⟨some ["b", "a", "zz"], [("a.jpg", 3, 4), ("b.JPG", 5, 6)],
   fun s =>
     if s = "a" then
       some ⟨csvHeader, [[Cell.num 0, Cell.num 1, Cell.num 2, Cell.num 3, Cell.num 4, Cell.num 1]]⟩
     else none⟩

/-- The mapping of the split-fixer witnesses. -/
def c6map : List (String × String) := [("imga.png", "img_001"), ("imgb", "img_002")]

/-- The input lines of the split-fixer witnesses. -/
def c6lines : List String := ["imga.png", "IMGB", "zzz"]

/-- A CSV file with synonym headers for the parser witness. -/
def c8file : CsvFile :=
  ⟨["X_Center", "Y", "DX", "Dy", "junk"],
   [[Cell.num 1, Cell.num 2, Cell.num 3, Cell.num 4, Cell.bad],
    [Cell.blank, Cell.num 2, Cell.num 3, Cell.num 4]]⟩

/-- Input lines for the regrouping witness. -/
def c10lines : List String := ["a/CREC_HLB_1.jpg", "leaf.png"]

example : lowerStr "Ab C.PNG" = "ab c.png" := by decide
example : pathStem "dir/a.b.jpg" = "a.b" := by decide
example : pathStem ".bashrc" = ".bashrc" := by decide
example : pathStem "noext" = "noext" := by decide
example : strContains "xxCREC_HLBzz" "CREC_HLB" = true := by decide
example : strContains "xyz" "image (" = false := by decide
example : globMatch ".jpg" "a.b.jpg" = true := by decide
example : globMatch ".jpg" ".jpg" = true := by decide
example : globMatch ".JPG" ".hidden.JPG" = true := by decide
example : globMatch ".jpg" "a.jpeg" = false := by decide
example : stripStr "  ab " = "ab" := by decide
example : sortedDedup ["b", "a", "b"] = ["a", "b"] := by decide
example : singularize "oranges" = "orange" := by decide
example : singularize "backgrounds" = "background" := by decide
example :
    parseCsvBoxes ⟨csvHeader, [[Cell.num 0, Cell.num 1, Cell.num 2, Cell.num 3, Cell.num 4, Cell.num 1]]⟩
      = [⟨1, 2, 3, 4⟩] := by decide
example : resolveLine [("IMG", "canon")] "img" = none := by decide
example : specResolveLine [("IMG", "canon")] "img" = some "canon" := by decide
example : resolveLine [("imgA.png", "img_001"), ("imgB", "img_002")] "imga.png" = none := by decide
example : resolveLine [("imga.png", "img_001"), ("imgb", "img_002")] "IMGB" = some "img_002" := by decide

/-! ## Order lemmas for the string sort -/

theorem charsLtb_irrefl : ∀ x : List Char, charsLtb x x = false := by
  intro x
  induction x with
  | nil => rfl
  | cons a as ih => simp [charsLtb, ih]

theorem charsLtb_trans :
    ∀ x y z : List Char, charsLtb x y = true → charsLtb y z = true → charsLtb x z = true := by
  intro x
  induction x with
  | nil =>
    intro y z hxy hyz
    cases y with
    | nil => simp [charsLtb] at hxy
    | cons b bs =>
      cases z with
      | nil => simp [charsLtb] at hyz
      | cons c cs => simp [charsLtb]
  | cons a as ih =>
    intro y z hxy hyz
    cases y with
    | nil => simp [charsLtb] at hxy
    | cons b bs =>
      cases z with
      | nil => simp [charsLtb] at hyz
      | cons c cs =>
        simp only [charsLtb] at hxy hyz ⊢
        by_cases hab : a.toNat < b.toNat
        · by_cases hbc : b.toNat < c.toNat
          · simp [Nat.lt_trans hab hbc]
          · by_cases hcb : c.toNat < b.toNat
            · simp [hbc, hcb] at hyz
            · have hac : a.toNat < c.toNat := by omega
              simp [hac]
        · by_cases hba : b.toNat < a.toNat
          · simp [hab, hba] at hxy
          · have hxy2 : charsLtb as bs = true := by simpa [hab, hba] using hxy
            by_cases hbc : b.toNat < c.toNat
            · have hac : a.toNat < c.toNat := by omega
              simp [hac]
            · by_cases hcb : c.toNat < b.toNat
              · simp [hbc, hcb] at hyz
              · have hyz2 : charsLtb bs cs = true := by simpa [hbc, hcb] using hyz
                have hac : ¬ a.toNat < c.toNat := by omega
                have hca : ¬ c.toNat < a.toNat := by omega
                simp [hac, hca, ih bs cs hxy2 hyz2]

theorem charsLtb_total_eq :
    ∀ x y : List Char, charsLtb x y = false → charsLtb y x = false → x = y := by
  intro x
  induction x with
  | nil =>
    intro y hxy _
    cases y with
    | nil => rfl
    | cons b bs => simp [charsLtb] at hxy
  | cons a as ih =>
    intro y hxy hyx
    cases y with
    | nil => simp [charsLtb] at hyx
    | cons b bs =>
      simp only [charsLtb] at hxy hyx
      by_cases hab : a.toNat < b.toNat
      · simp [hab] at hxy
      · by_cases hba : b.toNat < a.toNat
        · simp [hba, hab] at hyx
        · have h1 : charsLtb as bs = false := by simpa [hab, hba] using hxy
          have h2 : charsLtb bs as = false := by simpa [hab, hba] using hyx
          have hnat : a.toNat = b.toNat := by omega
          have hc : a = b := Char.ext (UInt32.ext hnat)
          rw [hc, ih bs h1 h2]

theorem strLtb_trans {x y z : String} (h1 : strLtb x y = true) (h2 : strLtb y z = true) :
    strLtb x z = true := charsLtb_trans x.data y.data z.data h1 h2

theorem strLtb_total_eq {x y : String} (h1 : strLtb x y = false) (h2 : strLtb y x = false) :
    x = y := String.ext (charsLtb_total_eq x.data y.data h1 h2)

theorem strLtb_irrefl (x : String) : strLtb x x = false := charsLtb_irrefl x.data

theorem mem_insertStr (a x : String) (l : List String) :
    x ∈ insertStr a l ↔ x = a ∨ x ∈ l := by
  induction l with
  | nil => simp [insertStr]
  | cons b bs ih =>
    cases h : strLtb a b with
    | true => simp [insertStr, h, List.mem_cons]
    | false =>
      simp [insertStr, h, List.mem_cons, ih]
      tauto

theorem pairwise_insertStr (a : String) (l : List String)
    (hl : l.Pairwise (fun u v => strLtb u v = true)) (ha : a ∉ l) :
    (insertStr a l).Pairwise (fun u v => strLtb u v = true) := by
  induction l with
  | nil => simp [insertStr]
  | cons b bs ih =>
    have hb : ∀ x ∈ bs, strLtb b x = true := (List.pairwise_cons.mp hl).1
    have hbs : bs.Pairwise (fun u v => strLtb u v = true) := (List.pairwise_cons.mp hl).2
    have hne : a ≠ b := fun h => ha (h ▸ List.mem_cons_self a bs)
    have hanotbs : a ∉ bs := fun h => ha (List.mem_cons_of_mem b h)
    by_cases h : strLtb a b = true
    · rw [insertStr, if_pos h]
      refine List.pairwise_cons.mpr ⟨?_, hl⟩
      intro x hx
      rcases List.mem_cons.mp hx with hxb | hxbs
      · exact hxb ▸ h
      · exact strLtb_trans h (hb x hxbs)
    · rw [insertStr, if_neg h]
      refine List.pairwise_cons.mpr ⟨?_, ih hbs hanotbs⟩
      intro x hx
      rcases (mem_insertStr a x bs).mp hx with hxa | hxbs
      · subst hxa
        cases hba : strLtb b x with
        | true => rfl
        | false =>
          have hab : strLtb x b = false := by
            cases hx2 : strLtb x b with
            | false => rfl
            | true => exact absurd hx2 h
          exact absurd (strLtb_total_eq hab hba) hne
      · exact hb x hxbs

theorem mem_sortStr (x : String) (l : List String) : x ∈ sortStr l ↔ x ∈ l := by
  induction l with
  | nil => simp [sortStr]
  | cons a as ih => simp [sortStr, mem_insertStr, ih]

theorem pairwise_sortStr (l : List String) (h : l.Nodup) :
    (sortStr l).Pairwise (fun u v => strLtb u v = true) := by
  induction l with
  | nil => simp [sortStr]
  | cons a as ih =>
    have hna : a ∉ as := (List.nodup_cons.mp h).1
    have hnodup : as.Nodup := (List.nodup_cons.mp h).2
    have : a ∉ sortStr as := fun hmem => hna ((mem_sortStr a as).mp hmem)
    exact pairwise_insertStr a (sortStr as) (ih hnodup) this

theorem mem_sortedDedup (x : String) (l : List String) : x ∈ sortedDedup l ↔ x ∈ l := by
  rw [sortedDedup, mem_sortStr, List.mem_dedup]

theorem pairwise_sortedDedup (l : List String) :
    (sortedDedup l).Pairwise (fun u v => strLtb u v = true) :=
  pairwise_sortStr l.dedup (List.nodup_dedup l)

/-! ## CSV parser lemmas -/

theorem getNum_isSome_iff (d : List (String × Cell)) (ks : List String) :
    (getNum d ks).isSome = true ↔ ∃ k ∈ ks, ∃ q, pyFind d k = some (Cell.num q) := by
  induction ks with
  | nil => simp [getNum]
  | cons k ks ih =>
    cases hf : pyFind d k with
    | none => simp [getNum, hf, ih]
    | some c =>
      cases c with
      | blank => simp [getNum, hf, ih]
      | bad => simp [getNum, hf, ih]
      | num q =>
        simp only [getNum, hf, Option.isSome_some, true_iff]
        exact ⟨k, List.mem_cons_self k ks, q, hf⟩

theorem parseRows_eq_filterMap (header : List String) (rows : List (List Cell)) :
    parseRows header rows = rows.filterMap (rowBox header) := by
  induction rows with
  | nil => rfl
  | cons r rs ih =>
    cases hx : getNum (rowDict header r) ["x", "xc", "x_center"] with
    | none => simp [parseRows, rowBox, hx, ih, List.filterMap_cons]
    | some xv =>
      cases hy : getNum (rowDict header r) ["y", "yc", "y_center"] with
      | none => simp [parseRows, rowBox, hx, hy, ih, List.filterMap_cons]
      | some yv =>
        cases hw : getNum (rowDict header r) ["w", "width", "dx"] with
        | none => simp [parseRows, rowBox, hx, hy, hw, ih, List.filterMap_cons]
        | some wv =>
          cases hh : getNum (rowDict header r) ["h", "height", "dy"] with
          | none => simp [parseRows, rowBox, hx, hy, hw, hh, ih, List.filterMap_cons]
          | some hv => simp [parseRows, rowBox, hx, hy, hw, hh, ih, List.filterMap_cons]

/-- C8: for every CSV file and data row, the parser matches header field
names case-insensitively against the synonym groups x:{x, xc, x_center},
y:{y, yc, y_center}, w:{w, width, dx}, h:{h, height, dy} (the row dict is
keyed by lowercased header names), and a row contributes a box exactly when
all four groups resolve to a parseable number; failing rows are skipped and
the remaining rows are still parsed (the parse is the row-wise filterMap). -/
theorem c8_parser_synonym_groups (f : CsvFile) :
    parseCsvBoxes f = f.rows.filterMap (rowBox f.header) ∧
    ∀ cells : List Cell,
      (rowBox f.header cells).isSome = true ↔
        ((∃ k ∈ ["x", "xc", "x_center"], ∃ q, pyFind (rowDict f.header cells) k = some (Cell.num q)) ∧
         (∃ k ∈ ["y", "yc", "y_center"], ∃ q, pyFind (rowDict f.header cells) k = some (Cell.num q)) ∧
         (∃ k ∈ ["w", "width", "dx"], ∃ q, pyFind (rowDict f.header cells) k = some (Cell.num q)) ∧
         (∃ k ∈ ["h", "height", "dy"], ∃ q, pyFind (rowDict f.header cells) k = some (Cell.num q))) := by
  constructor
  · exact parseRows_eq_filterMap f.header f.rows
  · intro cells
    rw [← getNum_isSome_iff, ← getNum_isSome_iff, ← getNum_isSome_iff, ← getNum_isSome_iff]
    cases hx : getNum (rowDict f.header cells) ["x", "xc", "x_center"] <;>
      cases hy : getNum (rowDict f.header cells) ["y", "yc", "y_center"] <;>
        cases hw : getNum (rowDict f.header cells) ["w", "width", "dx"] <;>
          cases hh : getNum (rowDict f.header cells) ["h", "height", "dy"] <;>
            simp [rowBox, hx, hy, hw, hh]

/-- Witness for C8 at a concrete CSV file with synonym headers, one good
row and one row whose x is blank. -/
theorem c8_witness :
    parseCsvBoxes c8file = c8file.rows.filterMap (rowBox c8file.header) ∧
    ∀ cells : List Cell,
      (rowBox c8file.header cells).isSome = true ↔
        ((∃ k ∈ ["x", "xc", "x_center"], ∃ q, pyFind (rowDict c8file.header cells) k = some (Cell.num q)) ∧
         (∃ k ∈ ["y", "yc", "y_center"], ∃ q, pyFind (rowDict c8file.header cells) k = some (Cell.num q)) ∧
         (∃ k ∈ ["w", "width", "dx"], ∃ q, pyFind (rowDict c8file.header cells) k = some (Cell.num q)) ∧
         (∃ k ∈ ["h", "height", "dy"], ∃ q, pyFind (rowDict c8file.header cells) k = some (Cell.num q))) :=
  c8_parser_synonym_groups c8file

/-! ## Round trip (C2) -/

theorem jsonToCsvRows_length (i : Nat) (l : List AnnEntry) :
    (jsonToCsvRows i l).length = l.length := by
  induction l generalizing i with
  | nil => rfl
  | cons a as ih => simp [jsonToCsvRows, ih]

theorem parse_jsonToCsvRows (l : List AnnEntry) (i : Nat) :
    parseRows csvHeader (jsonToCsvRows i l)
      = l.map (fun a => ⟨a.bboxX, a.bboxY, a.bboxW, a.bboxH⟩) := by
  induction l generalizing i with
  | nil => rfl
  | cons a as ih =>
    have hrow : parseRows csvHeader (jsonToCsvRows i (a :: as)) =
        (⟨a.bboxX, a.bboxY, a.bboxW, a.bboxH⟩ : CsvBox)
          :: parseRows csvHeader (jsonToCsvRows (i + 1) as) := rfl
    rw [hrow, ih, List.map_cons]

/-- C2: for an image whose source JSON has N entries in its annotations
list, the derived CSV has exactly N data rows, and parsing that CSV with
the Converter's parser yields exactly N boxes whose (x, y, width, height)
equal the original bbox values exactly. -/
theorem c2_round_trip (d : AnnJson) :
    (jsonToCsvFile d).rows.length = d.annotations.length ∧
    parseCsvBoxes (jsonToCsvFile d)
      = d.annotations.map (fun a => ⟨a.bboxX, a.bboxY, a.bboxW, a.bboxH⟩) :=
  ⟨jsonToCsvRows_length 0 d.annotations, parse_jsonToCsvRows d.annotations 0⟩

/-- Witness for C2 at a concrete two-annotation document. -/
theorem c2_witness :
    (jsonToCsvFile c2doc).rows.length = c2doc.annotations.length ∧
    parseCsvBoxes (jsonToCsvFile c2doc)
      = c2doc.annotations.map (fun a => ⟨a.bboxX, a.bboxY, a.bboxW, a.bboxH⟩) :=
  c2_round_trip c2doc

/-! ## Split fixer output (C6) -/

/-- C6: for every mapping and input line list, the output split list is
strictly sorted (hence deduplicated), and a stem appears in it exactly when
some input line resolves to it; in particular an unresolvable line
contributes nothing. -/
theorem c6_output_sorted_resolved (m : List (String × String)) (lines : List String) :
    (fixSplitLines m lines).Pairwise (fun u v => strLtb u v = true) ∧
    ∀ s, s ∈ fixSplitLines m lines ↔ ∃ l ∈ lines, resolveLine m l = some s := by
  constructor
  · exact pairwise_sortedDedup _
  · intro s
    rw [fixSplitLines, mem_sortedDedup, List.mem_filterMap]

/-- Witness for C6 at a concrete mapping and line list (one line of which
is unresolvable). -/
theorem c6_witness :
    (fixSplitLines c6map c6lines).Pairwise (fun u v => strLtb u v = true) ∧
    ∀ s, s ∈ fixSplitLines c6map c6lines ↔ ∃ l ∈ c6lines, resolveLine c6map l = some s :=
  c6_output_sorted_resolved c6map c6lines

/-! ## Substring semantics and the split regrouping heuristic (C10) -/

theorem leadsChars_iff (pat : List Char) :
    ∀ l : List Char, leadsChars pat l = true ↔ ∃ t, l = pat ++ t := by
  induction pat with
  | nil => intro l; simp [leadsChars]
  | cons a as ih =>
    intro l
    cases l with
    | nil => simp [leadsChars]
    | cons b bs =>
      simp only [leadsChars, Bool.and_eq_true, beq_iff_eq, ih]
      constructor
      · rintro ⟨hab, t, ht⟩
        exact ⟨t, by subst hab; rw [ht]; rfl⟩
      · rintro ⟨t, ht⟩
        rw [List.cons_append] at ht
        injection ht with h1 h2
        exact ⟨h1.symm, t, h2⟩

theorem hasSubChars_iff (pat : List Char) :
    ∀ hay : List Char, hasSubChars pat hay = true ↔ ∃ s t, hay = s ++ pat ++ t := by
  intro hay
  induction hay with
  | nil =>
    rw [hasSubChars, leadsChars_iff]
    constructor
    · rintro ⟨t, ht⟩
      exact ⟨[], t, by simpa using ht⟩
    · rintro ⟨s, t, ht⟩
      have h2 := List.append_eq_nil.mp ht.symm
      have h3 := List.append_eq_nil.mp h2.1
      exact ⟨[], by simp [h3.2]⟩
  | cons b bs ih =>
    rw [hasSubChars, Bool.or_eq_true, leadsChars_iff, ih]
    constructor
    · rintro (⟨t, ht⟩ | ⟨s, t, ht⟩)
      · exact ⟨[], t, by simpa using ht⟩
      · exact ⟨b :: s, t, by rw [ht]; rfl⟩
    · rintro ⟨s, t, ht⟩
      cases s with
      | nil => exact Or.inl ⟨t, by simpa using ht⟩
      | cons c s2 =>
        rw [List.cons_append, List.cons_append] at ht
        injection ht with h1 h2
        exact Or.inr ⟨s2, t, h2⟩

/-- C10: the Reorganizer's split regrouping sends a line's stem to the
oranges group exactly when the line contains one of the substrings
CREC_HLB, UF.Citrus_HLB or "image ("; every other line's stem goes to the
backgrounds group.  Only this filename heuristic decides membership. -/
theorem c10_orange_heuristic (lines : List String) :
    (categorizeLines lines).1 = (lines.filter isOrangeLine).map pathStem ∧
    (categorizeLines lines).2 = (lines.filter (fun l => !isOrangeLine l)).map pathStem ∧
    ∀ l : String, isOrangeLine l = true ↔
      ((∃ s t, l.data = s ++ "CREC_HLB".data ++ t) ∨
       (∃ s t, l.data = s ++ "UF.Citrus_HLB".data ++ t) ∨
       (∃ s t, l.data = s ++ "image (".data ++ t)) := by
  refine ⟨?_, ?_, ?_⟩
  · induction lines with
    | nil => rfl
    | cons l ls ih =>
      cases h : isOrangeLine l with
      | true => simp [categorizeLines, h, List.filter_cons, ih]
      | false => simp [categorizeLines, h, List.filter_cons, ih]
  · induction lines with
    | nil => rfl
    | cons l ls ih =>
      cases h : isOrangeLine l with
      | true => simp [categorizeLines, h, List.filter_cons, ih]
      | false => simp [categorizeLines, h, List.filter_cons, ih]
  · intro l
    rw [isOrangeLine, Bool.or_eq_true, Bool.or_eq_true, strContains, strContains, strContains,
        hasSubChars_iff, hasSubChars_iff, hasSubChars_iff]
    exact or_assoc

/-- Witness for C10 at a concrete line list with one orange-marked line. -/
theorem c10_witness :
    (categorizeLines c10lines).1 = (c10lines.filter isOrangeLine).map pathStem ∧
    (categorizeLines c10lines).2 = (c10lines.filter (fun l => !isOrangeLine l)).map pathStem ∧
    ∀ l : String, isOrangeLine l = true ↔
      ((∃ s t, l.data = s ++ "CREC_HLB".data ++ t) ∨
       (∃ s t, l.data = s ++ "UF.Citrus_HLB".data ++ t) ∨
       (∃ s t, l.data = s ++ "image (".data ++ t)) :=
  c10_orange_heuristic c10lines

/-! ## Singular category names (C9) -/

/-- C9: the single-category export's categories list is exactly one entry
with id 1 whose name is the category name with one trailing s stripped (the
name unchanged when it does not end in s); in particular backgrounds maps
to background and oranges to orange. -/
theorem c9_singular_category (fs : CategoryFS) (nm : String) :
    (∃ c : CatRec, (collectAnnotationsForSplit fs nm).2.2 = [c] ∧ c.id = 1 ∧
        ((∃ t : String, nm = t ++ "s" ∧ c.name = t) ∨
         ((¬ ∃ t : String, nm = t ++ "s") ∧ c.name = nm))) ∧
    (collectAnnotationsForSplit fs "backgrounds").2.2 = [⟨1, "background", "plant"⟩] ∧
    (collectAnnotationsForSplit fs "oranges").2.2 = [⟨1, "orange", "plant"⟩] := by
  refine ⟨⟨⟨1, singularize nm, "plant"⟩, rfl, rfl, ?_⟩, rfl, rfl⟩
  cases hL : nm.data.getLast? with
  | none =>
    right
    constructor
    · rintro ⟨t, ht⟩
      have hd : nm.data = t.data ++ ['s'] := by rw [ht]; rfl
      rw [hd, List.getLast?_concat] at hL
      exact Option.noConfusion hL
    · show singularize nm = nm
      simp [singularize, hL]
  | some ch =>
    by_cases hs : ch = 's'
    · subst hs
      left
      have hne : nm.data ≠ [] := by
        intro h
        rw [h] at hL
        exact Option.noConfusion hL
      have hlast : nm.data.getLast hne = 's' := by
        have h2 := List.getLast?_eq_getLast nm.data hne
        rw [hL] at h2
        exact (Option.some.inj h2).symm
      refine ⟨⟨nm.data.dropLast⟩, ?_, ?_⟩
      · apply String.ext
        show nm.data = nm.data.dropLast ++ ['s']
        conv_lhs => rw [← List.dropLast_append_getLast hne, hlast]
      · show singularize nm = _
        simp [singularize, hL]
    · right
      constructor
      · rintro ⟨t, ht⟩
        have hd : nm.data = t.data ++ ['s'] := by rw [ht]; rfl
        rw [hd, List.getLast?_concat] at hL
        exact hs (Option.some.inj hL).symm
      · show singularize nm = nm
        simp [singularize, hL, hs]

/-- Witness for C9 at a concrete category directory and the name oranges. -/
theorem c9_witness :
    (∃ c : CatRec, (collectAnnotationsForSplit c7fs "oranges").2.2 = [c] ∧ c.id = 1 ∧
        ((∃ t : String, "oranges" = t ++ "s" ∧ c.name = t) ∨
         ((¬ ∃ t : String, "oranges" = t ++ "s") ∧ c.name = "oranges"))) ∧
    (collectAnnotationsForSplit c7fs "backgrounds").2.2 = [⟨1, "background", "plant"⟩] ∧
    (collectAnnotationsForSplit c7fs "oranges").2.2 = [⟨1, "orange", "plant"⟩] :=
  c9_singular_category c7fs "oranges"

/-! ## Reorganizer CSV coverage (C1) -/

theorem lookup_of_mem_fst :
    ∀ (ws : List (String × CsvFile)) (k : String),
      k ∈ ws.map Prod.fst → ∃ c, List.lookup k ws = some c := by
  intro ws
  induction ws with
  | nil => intro k h; simp at h
  | cons p ps ih =>
    intro k h
    obtain ⟨p1, p2⟩ := p
    rw [List.map_cons, List.mem_cons] at h
    cases hbeq : k == p1 with
    | true => exact ⟨p2, by simp [List.lookup_cons, hbeq]⟩
    | false =>
      have hk : k ≠ p1 := by simpa using hbeq
      rcases h with h1 | h2
      · exact absurd h1 hk
      · obtain ⟨c, hc⟩ := ih k h2
        exact ⟨c, by simp [List.lookup_cons, hbeq, hc]⟩

theorem csvLookup_isSome_of_mem (ws : List (String × CsvFile)) (k : String)
    (h : k ∈ ws.map Prod.fst) : ∃ c, csvLookup ws k = some c := by
  apply lookup_of_mem_fst
  rw [List.map_reverse, List.mem_reverse]
  exact h

theorem processImages_copies (src : SourceDir) :
    ∀ L : List String, (processImages src L).1 = L := by
  intro L
  induction L with
  | nil => rfl
  | cons f fs ih =>
    cases h : jsonFor src f with
    | none => simp [processImages, h, ih]
    | some o =>
      cases o with
      | none => simp [processImages, h, ih]
      | some d => simp [processImages, h, ih]

theorem processImages_writes_mem (src : SourceDir) :
    ∀ (L : List String) (f : String), f ∈ L → jsonFor src f ≠ some none →
      pathStem f ∈ (processImages src L).2.map Prod.fst := by
  intro L
  induction L with
  | nil => intro f h; simp at h
  | cons g gs ih =>
    intro f hf hj
    rcases List.mem_cons.mp hf with rfl | hmem
    · cases h : jsonFor src f with
      | none => simp [processImages, h]
      | some o =>
        cases o with
        | none => exact absurd h hj
        | some d => simp [processImages, h]
    · have hrec := ih f hmem hj
      cases h : jsonFor src g with
      | none => simp [processImages, h, hrec]
      | some o =>
        cases o with
        | none => simpa [processImages, h] using hrec
        | some d => simp [processImages, h, hrec]

theorem processImages_write_none (src : SourceDir) :
    ∀ (L : List String) (f : String), f ∈ L → jsonFor src f = none →
      (pathStem f, emptyCsvFile) ∈ (processImages src L).2 := by
  intro L
  induction L with
  | nil => intro f h; simp at h
  | cons g gs ih =>
    intro f hf hj
    rcases List.mem_cons.mp hf with rfl | hmem
    · simp [processImages, hj]
    · have hrec := ih f hmem hj
      cases h : jsonFor src g with
      | none => simp [processImages, h, hrec]
      | some o =>
        cases o with
        | none => simpa [processImages, h] using hrec
        | some d => simp [processImages, h, hrec]

theorem processImages_write_some (src : SourceDir) :
    ∀ (L : List String) (f : String) (d : AnnJson), f ∈ L → jsonFor src f = some (some d) →
      (pathStem f, jsonToCsvFile d) ∈ (processImages src L).2 := by
  intro L
  induction L with
  | nil => intro f d h; simp at h
  | cons g gs ih =>
    intro f d hf hj
    rcases List.mem_cons.mp hf with rfl | hmem
    · simp [processImages, hj]
    · have hrec := ih f d hmem hj
      cases h : jsonFor src g with
      | none => simp [processImages, h, hrec]
      | some o =>
        cases o with
        | none => simpa [processImages, h] using hrec
        | some d2 => simp [processImages, h, hrec]

/-- C1 (amended): every globbed source image is processed (copied) even
when other images' JSONs are malformed; every source image whose annotation
JSON is absent or parses has a CSV file for its stem after the run --- the
header-only file when there is no JSON, the derived file when the JSON
parses (header-only again when it has no boxes); an image whose JSON is
present but malformed only logs a warning, so no CSV is written for it, and
the batch never aborts. -/
theorem c1_csv_exists_unless_malformed (src : SourceDir) (ext : String) :
    (processDirectory src ext).1 = imageGlob src ext ∧
    (∀ f ∈ imageGlob src ext, jsonFor src f ≠ some none →
      ∃ c, csvLookup (processDirectory src ext).2 (pathStem f) = some c) ∧
    (∀ f ∈ imageGlob src ext, jsonFor src f = none →
      (pathStem f, emptyCsvFile) ∈ (processDirectory src ext).2) ∧
    (∀ f ∈ imageGlob src ext, ∀ d : AnnJson, jsonFor src f = some (some d) →
      (pathStem f, jsonToCsvFile d) ∈ (processDirectory src ext).2) := by
  refine ⟨processImages_copies src (imageGlob src ext), ?_, ?_, ?_⟩
  · intro f hf hj
    exact csvLookup_isSome_of_mem _ _ (processImages_writes_mem src (imageGlob src ext) f hf hj)
  · intro f hf hj
    exact processImages_write_none src (imageGlob src ext) f hf hj
  · intro f hf d hj
    exact processImages_write_some src (imageGlob src ext) f d hf hj

/-- C1 counterexample: the image a.JPG is processed, its JSON a.json exists
but is malformed, and after the run no CSV file exists for stem a --- the
claim that every processed image has a CSV file even under a malformed JSON
fails on this input. -/
theorem c1_counterexample :
    "a.JPG" ∈ imageGlob c1src ".JPG" ∧
    jsonFor c1src "a.JPG" = some none ∧
    csvLookup (processDirectory c1src ".JPG").2 "a" = none := by
  refine ⟨by decide, by decide, by decide⟩

/-- Witness for the amended C1 theorem at a concrete one-image source. -/
theorem c1_witness :
    ("b.JPG" ∈ imageGlob c1wit ".JPG" ∧ jsonFor c1wit "b.JPG" ≠ some none) ∧
    ∃ c, csvLookup (processDirectory c1wit ".JPG").2 (pathStem "b.JPG") = some c :=
  ⟨⟨by decide, by decide⟩,
    (c1_csv_exists_unless_malformed c1wit ".JPG").2.1 "b.JPG" (by decide) (by decide)⟩

/-! ## Split fixer resolution order (C5) -/

/-- C5 counterexample: with the mapping IMG -> canon and the line img, the
code's fallback finds nothing (it compares the key stem IMG case-sensitively
against img), while the claimed case-insensitive fallback would resolve to
canon. -/
theorem c5_counterexample :
    resolveLine [("IMG", "canon")] "img" = none ∧
    specResolveLine [("IMG", "canon")] "img" = some "canon" :=
  ⟨by decide, by decide⟩

theorem fallbackScan_eq_amended (m : List (String × String)) (ls lsl : String) :
    fallbackScan m ls lsl = amendedFallbackScan m ls lsl := by
  induction m with
  | nil => rfl
  | cons p ps ih =>
    by_cases h : origStem p.1 = ls ∨ origStem p.1 = lsl
    · have hb : (origStem p.1 == ls || origStem p.1 == lsl) = true := by
        rcases h with h | h <;> simp [h]
      rw [fallbackScan, List.findSome?_cons, amendedFallbackScan, List.filter_cons, hb]
      simp [h]
    · rcases not_or.mp h with ⟨h1, h2⟩
      have hb : (origStem p.1 == ls || origStem p.1 == lsl) = false := by simp [h1, h2]
      rw [fallbackScan, List.findSome?_cons, amendedFallbackScan, List.filter_cons, hb]
      simp only [h1, h2, or_self, if_false]
      exact ih

/-- C5 (amended): line resolution tries the exact lookups (original line,
its extension-stripped stem, lowercased line, lowercased stem) in that
priority order, and only on total miss falls back to a linear scan over the
mapping in iteration order taking the first entry whose extension-stripped
key equals the line's stem or the line's lowercased stem --- the key's own
case is never folded, so the case-insensitive direction only succeeds when
the mapping key is already lowercase. -/
theorem c5_resolution_order (m : List (String × String)) (line : String) :
    resolveLine m line = amendedResolveLine m line := by
  cases h1 : List.lookup line m with
  | some v => simp [resolveLine, amendedResolveLine, findFirstKey, h1]
  | none =>
    cases h2 : List.lookup (pathStem line) m with
    | some v => simp [resolveLine, amendedResolveLine, findFirstKey, h1, h2]
    | none =>
      cases h3 : List.lookup (lowerStr line) m with
      | some v => simp [resolveLine, amendedResolveLine, findFirstKey, h1, h2, h3]
      | none =>
        cases h4 : List.lookup (lowerStr (pathStem line)) m with
        | some v => simp [resolveLine, amendedResolveLine, findFirstKey, h1, h2, h3, h4]
        | none =>
          simp [resolveLine, amendedResolveLine, findFirstKey, h1, h2, h3, h4,
            fallbackScan_eq_amended]

/-- Witness for the amended C5 theorem at a concrete mapping and line. -/
theorem c5_witness :
    resolveLine c6map "IMGA.PNG" = amendedResolveLine c6map "IMGA.PNG" :=
  c5_resolution_order c6map "IMGA.PNG"

/-! ## Converter split fallback (C7) -/

/-- C7: when the split file is missing or has no non-blank lines, the
converter's stem set is exactly the stems of the images present under
images/, provided the directory obeys the documented contract that every
image file carries one of the extensions .jpg, .JPG, .png. -/
theorem c7_missing_split_falls_back (fs : CategoryFS)
    (h1 : readSplitList fs.splitLines = [])
    (h2 : ∀ e ∈ fs.imageFiles,
        (globMatch ".jpg" e.1 || globMatch ".JPG" e.1 || globMatch ".png" e.1) = true) :
    ∀ s, s ∈ sortedStems fs ↔ ∃ e ∈ fs.imageFiles, pathStem e.1 = s := by
  intro s
  rw [sortedStems, mem_sortedDedup, splitStems, if_pos h1, globStems]
  simp only [List.mem_append, List.mem_map, List.mem_filter]
  constructor
  · rintro ((⟨e, ⟨he, _⟩, hs⟩ | ⟨e, ⟨he, _⟩, hs⟩) | ⟨e, ⟨he, _⟩, hs⟩) <;> exact ⟨e, he, hs⟩
  · rintro ⟨e, he, hs⟩
    have hm := h2 e he
    rw [Bool.or_eq_true, Bool.or_eq_true] at hm
    rcases hm with (hm | hm) | hm
    · exact Or.inl (Or.inl ⟨e, ⟨he, hm⟩, hs⟩)
    · exact Or.inl (Or.inr ⟨e, ⟨he, hm⟩, hs⟩)
    · exact Or.inr ⟨e, ⟨he, hm⟩, hs⟩

/-- Witness for C7 at a concrete category directory. -/
theorem c7_witness :
    "img1" ∈ sortedStems c7fs ↔ ∃ e ∈ c7fs.imageFiles, pathStem e.1 = "img1" :=
  c7_missing_split_falls_back c7fs (by decide) (by decide) "img1"

/-! ## Dense identifiers in a single-category export (C4) -/

theorem mkAnns_map_id (imgId : Nat) :
    ∀ (boxes : List CsvBox) (annId : Nat),
      (mkAnns imgId annId boxes).map (fun a => a.id) = List.range' annId boxes.length := by
  intro boxes
  induction boxes with
  | nil => intro annId; rfl
  | cons b bs ih =>
    intro annId
    simp only [mkAnns, List.map_cons, ih, List.length_cons]
    rw [List.range'_succ]

theorem mkAnns_map_imgId (imgId : Nat) :
    ∀ (boxes : List CsvBox) (annId : Nat),
      (mkAnns imgId annId boxes).map (fun a => a.imageId)
        = List.replicate boxes.length imgId := by
  intro boxes
  induction boxes with
  | nil => intro annId; rfl
  | cons b bs ih =>
    intro annId
    simp only [mkAnns, List.map_cons, ih, List.length_cons, List.replicate_succ]

theorem mkAnns_length (imgId : Nat) :
    ∀ (boxes : List CsvBox) (annId : Nat),
      (mkAnns imgId annId boxes).length = boxes.length := by
  intro boxes
  induction boxes with
  | nil => intro annId; rfl
  | cons b bs ih => intro annId; simp [mkAnns, ih]

theorem mkAnns_mem_imageId (imgId : Nat) :
    ∀ (boxes : List CsvBox) (annId : Nat) (a : AnnRec),
      a ∈ mkAnns imgId annId boxes → a.imageId = imgId := by
  intro boxes
  induction boxes with
  | nil => intro annId a ha; simp [mkAnns] at ha
  | cons b bs ih =>
    intro annId a ha
    rcases List.mem_cons.mp ha with rfl | hmem
    · rfl
    · exact ih (annId + 1) a hmem

theorem collectLoop_spec (fs : CategoryFS) (cat : String) :
    ∀ (stems : List String) (imgId annId : Nat),
      ((collectLoop fs cat stems imgId annId).1.map (fun i => i.id)
          = List.range' imgId (collectLoop fs cat stems imgId annId).1.length) ∧
      ((collectLoop fs cat stems imgId annId).1.map (fun i => i.fileName)
          = (stems.filter (fun s => (findImage fs s).isSome)).map
              (fun s => cat ++ "/images/" ++ resolvedName fs s)) ∧
      ((collectLoop fs cat stems imgId annId).2.map (fun a => a.id)
          = List.range' annId (collectLoop fs cat stems imgId annId).2.length) ∧
      ((collectLoop fs cat stems imgId annId).2.map (fun a => a.imageId)
          = annImgPattern fs stems imgId) ∧
      (∀ a ∈ (collectLoop fs cat stems imgId annId).2,
          ∃ im ∈ (collectLoop fs cat stems imgId annId).1, a.imageId = im.id) := by
  intro stems
  induction stems with
  | nil =>
    intro imgId annId
    refine ⟨rfl, rfl, rfl, rfl, ?_⟩
    intro a ha
    simp [collectLoop] at ha
  | cons st rest ih =>
    intro imgId annId
    cases hfi : findImage fs st with
    | none =>
      have h0 : collectLoop fs cat (st :: rest) imgId annId
          = collectLoop fs cat rest imgId annId := by
        simp [collectLoop, hfi]
      have hfil : (st :: rest).filter (fun s => (findImage fs s).isSome)
          = rest.filter (fun s => (findImage fs s).isSome) := by
        simp [List.filter_cons, hfi]
      have hpat : annImgPattern fs (st :: rest) imgId = annImgPattern fs rest imgId := by
        simp [annImgPattern, hfi]
      rw [h0, hfil, hpat]
      exact ih imgId annId
    | some t =>
      obtain ⟨fname, w, h⟩ := t
      have h0 : collectLoop fs cat (st :: rest) imgId annId =
          (⟨imgId, cat ++ "/images/" ++ fname, w, h⟩ ::
              (collectLoop fs cat rest (imgId + 1) (annId + (stemBoxes fs st).length)).1,
           mkAnns imgId annId (stemBoxes fs st) ++
              (collectLoop fs cat rest (imgId + 1) (annId + (stemBoxes fs st).length)).2) := by
        simp [collectLoop, hfi]
      have hres : resolvedName fs st = fname := by simp [resolvedName, hfi]
      obtain ⟨ih1, ih2, ih3, ih4, ih5⟩ := ih (imgId + 1) (annId + (stemBoxes fs st).length)
      rw [h0]
      refine ⟨?_, ?_, ?_, ?_, ?_⟩
      · simp only [List.map_cons, ih1, List.length_cons]
        rw [List.range'_succ]
      · simp [List.filter_cons, hfi, hres, ih2]
      · simp only [List.map_append, mkAnns_map_id, ih3, List.length_append, mkAnns_length]
        have hap := List.range'_append annId (stemBoxes fs st).length
          (collectLoop fs cat rest (imgId + 1) (annId + (stemBoxes fs st).length)).2.length 1
        simp only [Nat.one_mul] at hap
        rw [hap, Nat.add_comm]
      · simp [annImgPattern, hfi, List.map_append, mkAnns_map_imgId, ih4]
      · intro a ha
        rcases List.mem_append.mp ha with hmk | hrec
        · exact ⟨⟨imgId, cat ++ "/images/" ++ fname, w, h⟩, List.mem_cons_self _ _,
            mkAnns_mem_imageId imgId (stemBoxes fs st) annId a hmk⟩
        · obtain ⟨im, him, heq⟩ := ih5 a hrec
          exact ⟨im, List.mem_cons_of_mem _ him, heq⟩

/-- C4: in a single-category export the stem list is strictly ascending in
case-sensitive string order; image ids are dense 1..N in that order, stems
with no image file under .jpg/.JPG/.png are excluded without consuming an
id (the images correspond exactly to the resolvable stems in order);
annotation ids are dense 1..M; and every annotation's image id is the id
assigned to its own image (the k-th resolved stem's boxes all carry image
id k). -/
theorem c4_dense_ids_sorted (fs : CategoryFS) (cat : String) :
    ((sortedStems fs).Pairwise (fun u v => strLtb u v = true)) ∧
    ((collectAnnotationsForSplit fs cat).1.map (fun i => i.id)
        = List.range' 1 (collectAnnotationsForSplit fs cat).1.length) ∧
    ((collectAnnotationsForSplit fs cat).1.map (fun i => i.fileName)
        = ((sortedStems fs).filter (fun s => (findImage fs s).isSome)).map
            (fun s => cat ++ "/images/" ++ resolvedName fs s)) ∧
    ((collectAnnotationsForSplit fs cat).2.1.map (fun a => a.id)
        = List.range' 1 (collectAnnotationsForSplit fs cat).2.1.length) ∧
    ((collectAnnotationsForSplit fs cat).2.1.map (fun a => a.imageId)
        = annImgPattern fs (sortedStems fs) 1) ∧
    (∀ a ∈ (collectAnnotationsForSplit fs cat).2.1,
        ∃ im ∈ (collectAnnotationsForSplit fs cat).1, a.imageId = im.id) := by
  obtain ⟨h1, h2, h3, h4, h5⟩ := collectLoop_spec fs cat (sortedStems fs) 1 1
  exact ⟨pairwise_sortedDedup _, h1, h2, h3, h4, h5⟩

/-- Witness for C4 at a concrete category directory with an unresolvable
stem between two resolvable ones. -/
theorem c4_witness :
    ((sortedStems c4fs).Pairwise (fun u v => strLtb u v = true)) ∧
    ((collectAnnotationsForSplit c4fs "oranges").1.map (fun i => i.id)
        = List.range' 1 (collectAnnotationsForSplit c4fs "oranges").1.length) ∧
    ((collectAnnotationsForSplit c4fs "oranges").1.map (fun i => i.fileName)
        = ((sortedStems c4fs).filter (fun s => (findImage c4fs s).isSome)).map
            (fun s => "oranges" ++ "/images/" ++ resolvedName c4fs s)) ∧
    ((collectAnnotationsForSplit c4fs "oranges").2.1.map (fun a => a.id)
        = List.range' 1 (collectAnnotationsForSplit c4fs "oranges").2.1.length) ∧
    ((collectAnnotationsForSplit c4fs "oranges").2.1.map (fun a => a.imageId)
        = annImgPattern c4fs (sortedStems c4fs) 1) ∧
    (∀ a ∈ (collectAnnotationsForSplit c4fs "oranges").2.1,
        ∃ im ∈ (collectAnnotationsForSplit c4fs "oranges").1, a.imageId = im.id) :=
  c4_dense_ids_sorted c4fs "oranges"

/-! ## Merge renumbering (C3) -/

theorem lookup_append {α β : Type} [BEq α] (k : α) :
    ∀ l1 l2 : List (α × β),
      List.lookup k (l1 ++ l2) =
        match List.lookup k l1 with
        | some v => some v
        | none => List.lookup k l2 := by
  intro l1 l2
  induction l1 with
  | nil => rfl
  | cons p ps ih =>
    obtain ⟨p1, p2⟩ := p
    rw [List.cons_append, List.lookup_cons, List.lookup_cons]
    cases k == p1 with
    | true => rfl
    | false => simpa using ih

theorem lookup_eq_none_of_not_mem {α β : Type} [BEq α] [LawfulBEq α] (k : α) :
    ∀ l : List (α × β), k ∉ l.map Prod.fst → List.lookup k l = none := by
  intro l
  induction l with
  | nil => intro _; rfl
  | cons p ps ih =>
    obtain ⟨p1, p2⟩ := p
    intro h
    rw [List.map_cons, List.mem_cons] at h
    have h1 : k ≠ p1 := fun he => h (Or.inl he)
    have h2 : k ∉ ps.map Prod.fst := fun hm => h (Or.inr hm)
    have hb : (k == p1) = false := beq_eq_false_iff_ne.mpr h1
    rw [List.lookup_cons, hb]
    exact ih h2

theorem idMapFind_some_val :
    ∀ (l : List ImageRec) (n k v : Nat),
      idMapFind (buildIdMap l n) k = some v → ∃ j, j < l.length ∧ v = n + j := by
  intro l
  induction l with
  | nil =>
    intro n k v hv
    simp [idMapFind, buildIdMap] at hv
  | cons im rest ih =>
    intro n k v hv
    have hrev : (buildIdMap (im :: rest) n).reverse
        = (buildIdMap rest (n + 1)).reverse ++ [(im.id, n)] := by
      simp [buildIdMap]
    rw [idMapFind, hrev, lookup_append] at hv
    cases hrec : List.lookup k (buildIdMap rest (n + 1)).reverse with
    | some v2 =>
      rw [hrec] at hv
      obtain ⟨j, hj, hval⟩ := ih (n + 1) k v2 hrec
      have hvv : v = v2 := by
        simpa using hv.symm
      exact ⟨j + 1, by simpa using Nat.succ_lt_succ hj, by omega⟩
    | none =>
      rw [hrec] at hv
      rw [List.lookup_cons] at hv
      cases hb : k == im.id with
      | true =>
        rw [hb] at hv
        have hvn : v = n := by simpa using hv.symm
        exact ⟨0, by simp, by omega⟩
      | false =>
        rw [hb] at hv
        simp at hv

theorem idMapFind_isSome_iff :
    ∀ (l : List ImageRec) (n k : Nat),
      (idMapFind (buildIdMap l n) k).isSome = true ↔ k ∈ l.map (fun im => im.id) := by
  intro l
  induction l with
  | nil => intro n k; simp [idMapFind, buildIdMap]
  | cons im rest ih =>
    intro n k
    have hrev : (buildIdMap (im :: rest) n).reverse
        = (buildIdMap rest (n + 1)).reverse ++ [(im.id, n)] := by
      simp [buildIdMap]
    rw [idMapFind, hrev, lookup_append]
    cases hrec : List.lookup k (buildIdMap rest (n + 1)).reverse with
    | some v2 =>
      have hmem : k ∈ rest.map (fun im => im.id) := by
        rw [← ih (n + 1) k, idMapFind, hrec]
        rfl
      simp [hmem]
    | none =>
      have hnmem : k ∉ rest.map (fun im => im.id) := by
        rw [← ih (n + 1) k, idMapFind, hrec]
        simp
      rw [List.lookup_cons]
      cases hb : k == im.id with
      | true =>
        have : k = im.id := by simpa using hb
        simp [this]
      | false =>
        have : k ≠ im.id := by simpa using hb
        simp [this, hnmem]

theorem renumberImgs_length : ∀ (l : List ImageRec) (n : Nat),
    (renumberImgs l n).length = l.length := by
  intro l
  induction l with
  | nil => intro n; rfl
  | cons im rest ih => intro n; simp [renumberImgs, ih]

theorem renumberImgs_map_id : ∀ (l : List ImageRec) (n : Nat),
    (renumberImgs l n).map (fun im => im.id) = List.range' n l.length := by
  intro l
  induction l with
  | nil => intro n; rfl
  | cons im rest ih =>
    intro n
    simp only [renumberImgs, List.map_cons, ih, List.length_cons]
    rw [List.range'_succ]

theorem remapAnns_spec (idMap : List (Nat × Nat)) (catId : Nat) :
    ∀ (anns : List AnnRec) (nxt : Nat),
      (∀ a ∈ anns, (idMapFind idMap a.imageId).isSome = true) →
      ∃ out, remapAnns idMap catId anns nxt = some out ∧
        out.length = anns.length ∧
        out.map (fun a => a.id) = List.range' nxt anns.length ∧
        out.map (fun a => a.imageId)
          = anns.map (fun a => (idMapFind idMap a.imageId).getD 0) ∧
        out.map (fun a => a.categoryId) = List.replicate anns.length catId := by
  intro anns
  induction anns with
  | nil => intro nxt _; exact ⟨[], rfl, rfl, rfl, rfl, rfl⟩
  | cons a as ih =>
    intro nxt h
    have ha := h a (List.mem_cons_self a as)
    cases hfind : idMapFind idMap a.imageId with
    | none => rw [hfind] at ha; simp at ha
    | some nid =>
      obtain ⟨out, hout, hlen, hid, himg, hcat⟩ :=
        ih (nxt + 1) (fun x hx => h x (List.mem_cons_of_mem a hx))
      refine ⟨{a with id := nxt, imageId := nid, categoryId := catId} :: out,
        ?_, ?_, ?_, ?_, ?_⟩
      · simp [remapAnns, hfind, hout]
      · simp [hlen]
      · simp only [List.map_cons, hid, List.length_cons]
        rw [List.range'_succ]
      · simp [himg, hfind]
      · simp [hcat, List.replicate_succ]

theorem categoryToCat_isSome :
    ∀ (l : List String) (i : Nat) (nm : String), nm ∈ l →
      (List.lookup nm (catAssign l i).reverse).isSome = true := by
  intro l
  induction l with
  | nil => intro i nm h; simp at h
  | cons hd tl ih =>
    intro i nm h
    have hrev : (catAssign (hd :: tl) i).reverse
        = (catAssign tl (i + 1)).reverse ++ [(hd, i)] := by
      simp [catAssign]
    rw [hrev, lookup_append]
    cases hrec : List.lookup nm (catAssign tl (i + 1)).reverse with
    | some v => rfl
    | none =>
      rcases List.mem_cons.mp h with rfl | hmem
      · simp [List.lookup_cons]
      · have := ih (i + 1) nm hmem
        rw [hrec] at this
        simp at this

theorem catAssign_append :
    ∀ (l1 l2 : List String) (i : Nat),
      catAssign (l1 ++ l2) i = catAssign l1 i ++ catAssign l2 (i + l1.length) := by
  intro l1
  induction l1 with
  | nil => intro l2 i; simp [catAssign]
  | cons hd tl ih =>
    intro l2 i
    have harith : i + 1 + tl.length = i + (tl.length + 1) := by omega
    show (hd, i) :: catAssign (tl ++ l2) (i + 1)
        = ((hd, i) :: catAssign tl (i + 1)) ++ catAssign l2 (i + (tl.length + 1))
    rw [List.cons_append, ih l2 (i + 1), harith]

theorem catAssign_map_fst : ∀ (l : List String) (i : Nat),
    (catAssign l i).map Prod.fst = l := by
  intro l
  induction l with
  | nil => intro i; rfl
  | cons hd tl ih => intro i; simp [catAssign, ih]

theorem categoryToCat_at (pre post : List String) (nm : String)
    (hnd : (pre ++ nm :: post).Nodup) :
    categoryToCat (pre ++ nm :: post) nm = some (pre.length + 1) := by
  have hnp : nm ∉ post := by
    have h2 := (List.nodup_append.mp hnd).2.1
    exact (List.nodup_cons.mp h2).1
  rw [categoryToCat, catAssign_append]
  have hmid : catAssign (nm :: post) (1 + pre.length)
      = (nm, 1 + pre.length) :: catAssign post (1 + pre.length + 1) := rfl
  rw [hmid, List.reverse_append, List.reverse_cons, lookup_append]
  have hnone : List.lookup nm (catAssign post (1 + pre.length + 1)).reverse = none := by
    apply lookup_eq_none_of_not_mem
    rw [List.map_reverse, List.mem_reverse, catAssign_map_fst]
    exact hnp
  rw [lookup_append, hnone]
  simp [List.lookup_cons, Nat.add_comm]

theorem mergedCatIds_eq_pattern :
    ∀ (post : List String) (pre : List String) (per : List CatExport),
      (pre ++ post).Nodup → per.length = post.length →
      mergedCatIds (pre ++ post) (per.zip post) = catIdPattern per (pre.length + 1) := by
  intro post
  induction post with
  | nil =>
    intro pre per _ hlen
    have : per = [] := List.length_eq_zero.mp (by simpa using hlen)
    subst this
    rfl
  | cons nm tl ih =>
    intro pre per hnd hlen
    cases per with
    | nil => simp at hlen
    | cons pc pr =>
      have hcat : categoryToCat (pre ++ nm :: tl) nm = some (pre.length + 1) :=
        categoryToCat_at pre tl nm hnd
      have hassoc : pre ++ nm :: tl = (pre ++ [nm]) ++ tl := by simp
      have hnd2 : ((pre ++ [nm]) ++ tl).Nodup := by rwa [← hassoc]
      have hlen2 : pr.length = tl.length := by simpa using hlen
      have hrec := ih (pre ++ [nm]) pr hnd2 hlen2
      rw [← hassoc] at hrec
      show List.replicate pc.anns.length ((categoryToCat (pre ++ nm :: tl) nm).getD 0)
          ++ mergedCatIds (pre ++ nm :: tl) (pr.zip tl)
        = List.replicate pc.anns.length (pre.length + 1) ++ catIdPattern pr (pre.length + 1 + 1)
      rw [hcat, hrec]
      simp

theorem mergeCats_map_id : ∀ (l : List String) (i : Nat),
    (mergeCats l i).map (fun c => c.id) = List.range' i l.length := by
  intro l
  induction l with
  | nil => intro i; rfl
  | cons hd tl ih =>
    intro i
    simp only [mergeCats, List.map_cons, ih, List.length_cons]
    rw [List.range'_succ]

theorem mergeLoop_spec (names : List String) :
    ∀ (pairs : List (CatExport × String)) (nImg nAnn : Nat),
      (∀ p ∈ pairs, (categoryToCat names p.2).isSome = true) →
      (∀ p ∈ pairs, ∀ a ∈ p.1.anns, a.imageId ∈ p.1.images.map (fun im => im.id)) →
      ∃ out, mergeLoop names pairs nImg nAnn = some out ∧
        out.1.map (fun im => im.id) = List.range' nImg out.1.length ∧
        out.2.map (fun a => a.id) = List.range' nAnn out.2.length ∧
        out.2.map (fun a => a.imageId) = remappedIds (pairs.map Prod.fst) nImg ∧
        out.2.map (fun a => a.categoryId) = mergedCatIds names pairs ∧
        (∀ a ∈ out.2, ∃ im ∈ out.1, a.imageId = im.id) := by
  intro pairs
  induction pairs with
  | nil =>
    intro nImg nAnn _ _
    refine ⟨([], []), rfl, rfl, rfl, rfl, rfl, ?_⟩
    intro a ha
    simp at ha
  | cons p rest ih =>
    obtain ⟨pc, nm⟩ := p
    intro nImg nAnn hc hr
    have hcp := hc (pc, nm) (List.mem_cons_self _ _)
    cases hcat : categoryToCat names nm with
    | none => rw [hcat] at hcp; simp at hcp
    | some catId =>
      have hres : ∀ a ∈ pc.anns,
          (idMapFind (buildIdMap pc.images nImg) a.imageId).isSome = true := by
        intro a ha
        rw [idMapFind_isSome_iff]
        exact hr (pc, nm) (List.mem_cons_self _ _) a ha
      obtain ⟨outAnns, hAnns, hlenA, hidA, himgA, hcatA⟩ :=
        remapAnns_spec (buildIdMap pc.images nImg) catId pc.anns nAnn hres
      obtain ⟨outR, hR, hR1, hR2, hR3, hR4, hR5⟩ :=
        ih (nImg + pc.images.length) (nAnn + pc.anns.length)
          (fun q hq => hc q (List.mem_cons_of_mem _ hq))
          (fun q hq => hr q (List.mem_cons_of_mem _ hq))
      refine ⟨(renumberImgs pc.images nImg ++ outR.1, outAnns ++ outR.2),
        ?_, ?_, ?_, ?_, ?_, ?_⟩
      · simp [mergeLoop, hcat, hAnns, hR]
      · simp only [List.map_append, renumberImgs_map_id, hR1, List.length_append,
          renumberImgs_length]
        have hap := List.range'_append nImg pc.images.length outR.1.length 1
        simp only [Nat.one_mul] at hap
        rw [hap, Nat.add_comm]
      · simp only [List.map_append, hidA, hR2, List.length_append, hlenA]
        have hap := List.range'_append nAnn pc.anns.length outR.2.length 1
        simp only [Nat.one_mul] at hap
        rw [hap, Nat.add_comm]
      · simp only [List.map_append, himgA, hR3, List.map_cons]
        rfl
      · simp only [List.map_append, hcatA, hR4]
        show _ = List.replicate pc.anns.length ((categoryToCat names nm).getD 0)
            ++ mergedCatIds names rest
        rw [hcat]
        rfl
      · intro a ha
        rcases List.mem_append.mp ha with hL | hRm
        · have hmm : a.imageId ∈ outAnns.map (fun a => a.imageId) :=
            List.mem_map_of_mem _ hL
          rw [himgA] at hmm
          obtain ⟨a0, ha0, heq⟩ := List.mem_map.mp hmm
          have hs := hres a0 ha0
          cases hfind : idMapFind (buildIdMap pc.images nImg) a0.imageId with
          | none => rw [hfind] at hs; simp at hs
          | some v =>
            obtain ⟨j, hj, hv⟩ := idMapFind_some_val pc.images nImg a0.imageId v hfind
            have hval : a.imageId = v := by
              rw [← heq, hfind]
              rfl
            have hvm : v ∈ (renumberImgs pc.images nImg).map (fun im => im.id) := by
              rw [renumberImgs_map_id, List.mem_range']
              exact ⟨j, hj, by omega⟩
            obtain ⟨im, him, hime⟩ := List.mem_map.mp hvm
            exact ⟨im, List.mem_append_left _ him, by rw [hval, ← hime]⟩
        · obtain ⟨im, him, heq⟩ := hR5 a hRm
          exact ⟨im, List.mem_append_right _ him, heq⟩

/-- C3: for every list of per-category (images, annotations) inputs aligned
with a duplicate-free category-name list and with every annotation's image
id resolvable in its own category's image list, the merge succeeds; merged
image ids and annotation ids are dense 1..N in output order, every
annotation's image_id is its own category's id_map value and refers to an
image in the merged list, every annotation's category_id is the 1-based
position of its category in the input order, and the merged categories list
carries ids 1..K. -/
theorem c3_merge_renumbering (per : List CatExport) (names : List String)
    (hlen : per.length = names.length) (hnd : names.Nodup)
    (hres : ∀ pc ∈ per, ∀ a ∈ pc.anns, a.imageId ∈ pc.images.map (fun im => im.id)) :
    ∃ out : List ImageRec × List AnnRec × List CatRec,
      mergeCocoSplits per names = some out ∧
      out.1.map (fun im => im.id) = List.range' 1 out.1.length ∧
      out.2.1.map (fun a => a.id) = List.range' 1 out.2.1.length ∧
      (∀ a ∈ out.2.1, ∃ im ∈ out.1, a.imageId = im.id) ∧
      out.2.1.map (fun a => a.imageId) = remappedIds per 1 ∧
      out.2.1.map (fun a => a.categoryId) = catIdPattern per 1 ∧
      out.2.2 = mergeCats names 1 ∧
      out.2.2.map (fun c => c.id) = List.range' 1 names.length := by
  have hc : ∀ p ∈ per.zip names, (categoryToCat names p.2).isSome = true := by
    intro p hp
    have := (List.of_mem_zip hp).2
    exact categoryToCat_isSome names 1 p.2 this
  have hr : ∀ p ∈ per.zip names, ∀ a ∈ p.1.anns,
      a.imageId ∈ p.1.images.map (fun im => im.id) := by
    intro p hp
    exact hres p.1 (List.of_mem_zip hp).1
  obtain ⟨outL, hML, h1, h2, h3, h4, h5⟩ := mergeLoop_spec names (per.zip names) 1 1 hc hr
  have hfst : (per.zip names).map Prod.fst = per :=
    List.map_fst_zip per names (le_of_eq hlen)
  have hpat : mergedCatIds names (per.zip names) = catIdPattern per 1 := by
    have := mergedCatIds_eq_pattern names [] per (by simpa using hnd) hlen
    simpa using this
  refine ⟨(outL.1, outL.2, mergeCats names 1), ?_, h1, h2, h5, ?_, ?_, rfl, ?_⟩
  · show mergeCocoSplits per names = _
    rw [mergeCocoSplits, hML]
  · rw [h3, hfst]
  · rw [h4, hpat]
  · show (mergeCats names 1).map (fun c => c.id) = _
    rw [mergeCats_map_id]

/-- Witness for C3 at the spec's example: two exports with 3 and 2 images. -/
theorem c3_witness :
    (c3per.length = c3names.length ∧ c3names.Nodup ∧
      ∀ pc ∈ c3per, ∀ a ∈ pc.anns, a.imageId ∈ pc.images.map (fun im => im.id)) ∧
    ∃ out : List ImageRec × List AnnRec × List CatRec,
      mergeCocoSplits c3per c3names = some out ∧
      out.1.map (fun im => im.id) = List.range' 1 out.1.length ∧
      out.2.1.map (fun a => a.id) = List.range' 1 out.2.1.length ∧
      (∀ a ∈ out.2.1, ∃ im ∈ out.1, a.imageId = im.id) ∧
      out.2.1.map (fun a => a.imageId) = remappedIds c3per 1 ∧
      out.2.1.map (fun a => a.categoryId) = catIdPattern c3per 1 ∧
      out.2.2 = mergeCats c3names 1 ∧
      out.2.2.map (fun c => c.id) = List.range' 1 c3names.length :=
  ⟨⟨by decide, by decide, by decide⟩,
    c3_merge_renumbering c3per c3names (by decide) (by decide) (by decide)⟩

end PlantVillage
